import Mathlib

/-!
Shallow embedding of the event-detection / windowing / KPI core of the
AEB KPI project, together with proofs checking the natural-language
specification against the code.

Conventions of the embedding:
* numpy float arrays are modelled as `List ℚ` (machine floats as exact
  rationals; every modelled value is finite, so `np.isfinite` guards are
  always taken in their finite branch);
* Python exceptions (`raise ValueError`, numpy `IndexError`, ...) are
  modelled with `Except String`;
* `print` / `warnings.warn` diagnostics have no observable effect on the
  returned data and are not modelled.
-/

namespace AebKpi

/-- Python `seq[-1]` on a numeric array, defaulting to `0` for the empty
array (callers only use it on non-empty arrays). -/
def lastD (l : List ℚ) : ℚ :=
  l.getLastD 0

/-- `np.where(cond(v))[0]` for an elementwise predicate on one array:
the ascending list of indices whose element satisfies the predicate. -/
def idxWhere (p : ℚ → Bool) (l : List ℚ) : List ℕ :=
  (List.range l.length).filter (fun i => p (l.getD i 0))

/-- `np.max` of a non-empty array (`0` on the empty array, which numpy
would reject; callers guard non-emptiness). -/
def npMax (l : List ℚ) : ℚ :=
  match l with
  | [] => 0
  | h :: t => t.foldl max h

/-- `np.min` of a non-empty array (`0` on the empty array). -/
def npMin (l : List ℚ) : ℚ :=
  match l with
  | [] => 0
  | h :: t => t.foldl min h

/-- `np.clip(x, lo, hi)`: `lo` if `x < lo`, else `hi` if `x > hi`, else
`x` (numpy returns `hi` when `lo > hi`). -/
def npClip (x lo hi : ℚ) : ℚ :=
  min (max x lo) hi

/-- `np.interp(x, xp, fp)` for ascending breakpoints `xp`: clamp at the
ends, piecewise-linear inside.  Mismatched or empty inputs yield the
junk value `0`; the caller validates shapes first, as the code does. -/
def npInterp (x : ℚ) : List ℚ → List ℚ → ℚ
  | x0 :: x1 :: xr, y0 :: y1 :: yr =>
      if x ≤ x0 then y0
      else if x ≤ x1 then y0 + (y1 - y0) * (x - x0) / (x1 - x0)
      else npInterp x (x1 :: xr) (y1 :: yr)
  | [_], y0 :: _ => y0
  | _, _ => 0

/-- Embedding of `interpolate_threshold_clamped(table, x_query)` from
`src/python/utils/process_calibratables.py` as staged: that module has
no import statements at all, so the function's first statement
`np.asarray(table)` raises `NameError` on every call, whatever the
arguments; none of the interpolation logic in its body is reachable. -/
def interpolate_threshold_clamped (_table : List (List ℚ)) (_x_query : ℚ) :
    Except String ℚ :=
  .error "NameError: name np is not defined"

/-- Modelled from the spec: the clamped interpolation that the staged
`interpolate_threshold_clamped` is documented to perform (its docstring
and the specification's Threshold Interpolator contract) but never
reaches because the module is missing the numpy import — require a 2×N
table with equal-length rows and at least 2 points, clamp the query
into the breakpoint range, and linearly interpolate. -/
def interpolate_threshold_clamped_spec (table : List (List ℚ)) (x_query : ℚ) :
    Except String ℚ :=
  match table with
  | [x_table, y_table] =>
      if x_table.length ≠ y_table.length ∨ x_table.length < 2 then
        .error "malformed calibration table"
      else
        .ok (npInterp (npClip x_query (npMin x_table) (npMax x_table)) x_table y_table)
  | _ => .error "malformed calibration table"

/-- Embedding of `BaseEventSegmenter.extract_events` from
`src/pipeline/base/base_event_segmenter.py`, restricted to the window
arithmetic: the list of `(start_sec, stop_sec)` windows that survive the
`stop_sec <= start_sec` skip (the subsequent `mdf.cut` / save side
effects do not alter the window bounds). -/
def extractWindows (start_times end_times : List ℚ) (pre_time post_time t_min t_max : ℚ) :
    List (ℚ × ℚ) :=
  if start_times.length = 0 then []
  else
    start_times.enum.filterMap (fun je =>
      let j := je.1
      let start_time := je.2
      let start_sec := max (start_time - pre_time) t_min
      let stop_sec :=
        if j < end_times.length then min (end_times.getD j 0 + post_time) t_max
        else min (start_time + post_time) t_max
      if stop_sec ≤ start_sec then none else some (start_sec, stop_sec))

/-- Result record written by `AebThrottleCalculator.compute_throttle`
into the KPI table row. -/
structure ThrottleKpis where
  pedalPosAtStart : ℚ
  pedalPosMax : ℚ
  pedalPosInc : ℚ
  isPedalPosIncHigh : Bool
  isPedalOnAtStrt : Bool
  deriving Repr, DecidableEq

/-- Embedding of `AebThrottleCalculator.compute_throttle` from
`src/utils/kpis/aeb/throttle.py`: `none` models the early return that
fills defaults when the start index is invalid (`None`, negative, or
past the end of the throttle signal). -/
def compute_throttle (throttle : List ℚ) (aeb_start_idx : Option ℕ)
    (pedal_pos_inc_th : ℚ) : Option ThrottleKpis :=
  match aeb_start_idx with
  | none => none
  | some i =>
      if i ≥ throttle.length then none
      else
        let pedal_start := throttle.getD i 0
        let throttle_range := throttle.drop i
        let pedal_max := npMax throttle_range
        let pedal_inc := pedal_max - pedal_start
        some { pedalPosAtStart := pedal_start
               pedalPosMax := pedal_max
               pedalPosInc := pedal_inc
               isPedalPosIncHigh := decide (pedal_inc > pedal_pos_inc_th)
               isPedalOnAtStrt := decide (pedal_start ≠ 0) }

/-- An AEB request level that starts an intervention (`curr in (1, 2)` in
`detect_aeb_events`). -/
abbrev aebActiveLevel (q : ℚ) : Prop := q = 1 ∨ q = 2

/-- An AEB request level that an intervention ends from
(`prev in (1, 2, 3)` in `detect_aeb_events`). -/
abbrev aebEndLevel (q : ℚ) : Prop := q = 1 ∨ q = 2 ∨ q = 3

/-- The `start_indices` accumulated by the transition loop of
`detect_aeb_events` (`src/utils/event_detector/aeb.py`): the indices
`i` of `range(1, len(req))`, in order, with `req[i] in (1,2)` and
`req[i-1] not in (1,2)`. -/
def aebStartIndices (req : List ℚ) : List ℕ :=
  (List.range' 1 (req.length - 1)).filter
    (fun i => decide (aebActiveLevel (req.getD i 0) ∧ ¬ aebActiveLevel (req.getD (i - 1) 0)))

/-- The `end_indices` accumulated by the transition loop of
`detect_aeb_events`: the indices `i` of `range(1, len(req))` with
`req[i-1] in (1,2,3)` and `req[i] == 0`. -/
def aebEndIndices (req : List ℚ) : List ℕ :=
  (List.range' 1 (req.length - 1)).filter
    (fun i => decide (aebEndLevel (req.getD (i - 1) 0) ∧ req.getD i 0 = 0))

/-- The end time paired with the start index `s` by the pairing loop of
`detect_aeb_events`: the first end index after `s` if any
(`[e for e in end_indices if e > s][0]`), else the
`min(time[-1], time[s] + post_time)` fallback. -/
def aebPairEnd (time : List ℚ) (post_time : ℚ) (end_indices : List ℕ) (s : ℕ) : ℚ :=
  match (end_indices.filter (fun e => decide (s < e))).head? with
  | some e => time.getD e 0
  | none => min (lastD time) (time.getD s 0 + post_time)

/-- Embedding of `detect_aeb_events(time, aeb_request, post_time)` from
`src/utils/event_detector/aeb.py`. -/
def detect_aeb_events (time aeb_request : List ℚ) (post_time : ℚ) :
    Except String (List ℚ × List ℚ) :=
  if time.length ≠ aeb_request.length ∨ time.length = 0 then
    .error "Input arrays must be the same length and non-empty."
  else
    let start_indices := aebStartIndices aeb_request
    let end_indices := aebEndIndices aeb_request
    .ok (start_indices.map (fun s => time.getD s 0),
         start_indices.map (aebPairEnd time post_time end_indices))

/-- `np.roll(a, 1)`: rotate the array one position to the right. -/
def npRoll1 (l : List ℚ) : List ℚ :=
  match l.getLast? with
  | none => []
  | some x => x :: l.dropLast

/-- The `fcw_prev` array of `detect_fcw_events`: `np.roll(fcw, 1)` with
index `0` overwritten by `fcw[0]`. -/
def fcwPrev (fcw : List ℚ) : List ℚ :=
  (npRoll1 fcw).set 0 (fcw.headD 0)

/-- `np.where(p(prev, cur))[0]` over two aligned arrays: the ascending
indices where the elementwise condition holds. -/
def idxWhere2 (p : ℚ → ℚ → Bool) (prev cur : List ℚ) : List ℕ :=
  (List.range cur.length).filter (fun i => p (prev.getD i 0) (cur.getD i 0))

/-- The merge loop of `detect_fcw_events`, carrying the running
`(cur_s, cur_e)` accumulator over the remaining `(ns, ne)` pairs. -/
def mergeAux (merge_window cur_s cur_e : ℚ) : List (ℚ × ℚ) → List (ℚ × ℚ)
  | [] => [(cur_s, cur_e)]
  | (ns, ne) :: rest =>
      if ns - cur_e ≤ merge_window then mergeAux merge_window cur_s ne rest
      else (cur_s, cur_e) :: mergeAux merge_window ns ne rest

/-- The merge step of `detect_fcw_events` on positionally paired
`(start, end)` events. -/
def mergePairs (merge_window : ℚ) : List (ℚ × ℚ) → List (ℚ × ℚ)
  | [] => []
  | (s, e) :: rest => mergeAux merge_window s e rest

/-- Embedding of `detect_fcw_events(time, fcw_request, merge_window)`
from `src/utils/event_detector/fcw.py`.  When the merge loop would read
`end_times[i]` past the end of the (once-extended) end-time array —
which happens exactly when, after the single synthetic append, there
are still fewer ends than starts — the Python code raises `IndexError`;
this is modelled as an `.error` result. -/
def detect_fcw_events (time fcw_request : List ℚ) (merge_window : ℚ) :
    Except String (List ℚ × List ℚ) :=
  if time.length ≠ fcw_request.length ∨ time.length = 0 then
    .error "Input arrays must be same length and non-empty."
  else
    let fcw_prev := fcwPrev fcw_request
    let start_idx := idxWhere2 (fun p c => decide (p = 0 ∧ (c = 2 ∨ c = 3))) fcw_prev fcw_request
    let end_idx := idxWhere2 (fun p c => decide ((p = 2 ∨ p = 3) ∧ c = 0)) fcw_prev fcw_request
    let start_times := start_idx.map (fun i => time.getD i 0)
    let end_times0 := end_idx.map (fun i => time.getD i 0)
    let end_times :=
      if end_times0.length < start_times.length then end_times0 ++ [lastD time]
      else end_times0
    if start_times.length = 0 then .ok ([], [])
    else if end_times.length < start_times.length then
      .error "IndexError: index out of bounds in merge loop"
    else
      let merged := mergePairs merge_window (start_times.zip end_times)
      .ok (merged.map Prod.fst, merged.map Prod.snd)

/-- The rising edges described by the specification of the FCW
detector: indices whose previous sample (the sample itself at index 0)
is `0` and whose current sample is `2` or `3`. -/
def fcwRisingIdx (fcw : List ℚ) : List ℕ :=
  (List.range fcw.length).filter (fun i =>
    decide ((if i = 0 then fcw.getD 0 0 else fcw.getD (i - 1) 0) = 0 ∧
            (fcw.getD i 0 = 2 ∨ fcw.getD i 0 = 3)))

/-- The falling edges described by the specification of the FCW
detector: previous sample `2` or `3`, current sample `0`. -/
def fcwFallingIdx (fcw : List ℚ) : List ℕ :=
  (List.range fcw.length).filter (fun i =>
    decide (((if i = 0 then fcw.getD 0 0 else fcw.getD (i - 1) 0) = 2 ∨
             (if i = 0 then fcw.getD 0 0 else fcw.getD (i - 1) 0) = 3) ∧
            fcw.getD i 0 = 0))

/-- The FCW event lists as the specification describes them: start
times are the rising edges, end times the falling edges, one synthetic
final-timestamp end appended when starts outnumber ends, and
close-together consecutive events merged. -/
def fcwEventsSpec (time fcw : List ℚ) (merge_window : ℚ) : List ℚ × List ℚ :=
  let starts := (fcwRisingIdx fcw).map (fun i => time.getD i 0)
  let ends0 := (fcwFallingIdx fcw).map (fun i => time.getD i 0)
  let ends := if ends0.length < starts.length then ends0 ++ [lastD time] else ends0
  if starts.length = 0 then ([], [])
  else
    let merged := mergePairs merge_window (starts.zip ends)
    (merged.map Prod.fst, merged.map Prod.snd)

/-- Result record written by `AebBrakeModeCalculator.compute_brake_mode`
into the KPI table row. -/
structure BrakeModeKpis where
  pbDur : ℚ
  fbDur : ℚ
  isPBOn : Bool
  isFBOn : Bool
  deriving Repr, DecidableEq

/-- Python built-in `round` to the nearest integer: banker's rounding,
half-way values go to the even neighbour. -/
def roundHalfEven (q : ℚ) : ℤ :=
  if q - ⌊q⌋ < 1 / 2 then ⌊q⌋
  else if q - ⌊q⌋ > 1 / 2 then ⌊q⌋ + 1
  else if Even ⌊q⌋ then ⌊q⌋ else ⌊q⌋ + 1

/-- Python `round(x, 3)`. -/
def pyRound3 (q : ℚ) : ℚ :=
  (roundHalfEven (q * 1000) : ℚ) / 1000

/-- The `pb_idx` candidates of `compute_brake_mode`: indices of the
segment within the tolerance band of the partial-braking target. -/
def pbCandidates (segment : List ℚ) (pb_tgt_decel tgt_tol : ℚ) : List ℕ :=
  idxWhere (fun v => decide (|v - pb_tgt_decel| ≤ tgt_tol)) segment

/-- The `fb_idx` candidates of `compute_brake_mode`: indices of the
segment within the tolerance band of the full-braking target. -/
def fbCandidates (segment : List ℚ) (fb_tgt_decel tgt_tol : ℚ) : List ℕ :=
  idxWhere (fun v => decide (|v - fb_tgt_decel| ≤ tgt_tol)) segment

/-- The partial-braking candidate indices that occur strictly before
the first full-braking candidate (the restriction the specification
describes for the PB duration when both modes are present). -/
def pbBeforeFirstFb (segment : List ℚ) (pb_tgt_decel fb_tgt_decel tgt_tol : ℚ) : List ℕ :=
  (pbCandidates segment pb_tgt_decel tgt_tol).filter
    (fun k => decide (k < (fbCandidates segment fb_tgt_decel tgt_tol).headD 0))

/-- Embedding of `AebBrakeModeCalculator.compute_brake_mode` from
`src/utils/kpis/aeb/brake_mode.py`, restricted to the values written
into the KPI row.  `none` models the early return (with a warning, no
write) for a missing or out-of-range start index.  The `np.isfinite`
guards are always satisfied in the rational model. -/
def compute_brake_mode (target_decel time : List ℚ) (aeb_start_idx : Option ℕ)
    (pb_tgt_decel fb_tgt_decel tgt_tol : ℚ) : Option BrakeModeKpis :=
  match aeb_start_idx with
  | none => none
  | some start =>
    if start ≥ time.length then none
    else
      -- segment = target_decel[aeb_start_idx : aeb_end_req + 1], aeb_end_req = len(time) - 1
      let segment := (target_decel.drop start).take (time.length - start)
      let pb_idx := pbCandidates segment pb_tgt_decel tgt_tol
      let fb_idx := fbCandidates segment fb_tgt_decel tgt_tol
      let is_fb_on : Bool := decide (0 < fb_idx.length)
      let step3 : Bool × ℚ :=
        if 0 < pb_idx.length then
          if is_fb_on then
            let first_fb := start + fb_idx.headD 0
            let pb_idx2 := pb_idx.filter (fun k => decide (start + k < first_fb))
            if pb_idx2 = [] then (false, 0)
            else (true, time.getD (start + pb_idx2.getLastD 0) 0 -
                        time.getD (start + pb_idx2.headD 0) 0)
          else
            (true, time.getD (start + pb_idx.getLastD 0) 0 -
                   time.getD (start + pb_idx.headD 0) 0)
        else (false, 0)
      let fb_dur_val :=
        if is_fb_on then
          pyRound3 (time.getD (start + fb_idx.getLastD 0) 0 -
                    time.getD (start + fb_idx.headD 0) 0)
        else 0
      some { pbDur := pyRound3 step3.2
             fbDur := fb_dur_val
             isPBOn := step3.1
             isFBOn := is_fb_on }

/-- The partial-braking duration the specification prescribes when
both modes are present: last-minus-first matching time over only the
partial-braking candidates that precede the first full-braking sample,
rounded to 3 decimals. -/
def pbDurRestricted (target_decel time : List ℚ) (start : ℕ) (pb_tgt_decel fb_tgt_decel tgt_tol : ℚ) : ℚ :=
  let segment := (target_decel.drop start).take (time.length - start)
  let l := pbBeforeFirstFb segment pb_tgt_decel fb_tgt_decel tgt_tol
  pyRound3 (time.getD (start + l.getLastD 0) 0 - time.getD (start + l.headD 0) 0)

/-- `np.diff`. -/
def npDiff (l : List ℚ) : List ℚ :=
  ((l.drop 1).zip l).map (fun p => p.1 - p.2)

/-- `np.mean` (junk value `0` on the empty array, which numpy turns
into a NaN warning; callers pass non-degenerate time vectors). -/
def npMean (l : List ℚ) : ℚ :=
  l.sum / l.length

/-- `np.gradient(f, dt)` with scalar spacing: one-sided differences at
the two edges, central differences inside. -/
def npGradient (f : List ℚ) (dt : ℚ) : List ℚ :=
  (List.range f.length).map (fun i =>
    if i = 0 then (f.getD 1 0 - f.getD 0 0) / dt
    else if i = f.length - 1 then
      (f.getD (f.length - 1) 0 - f.getD (f.length - 2) 0) / dt
    else (f.getD (i + 1) 0 - f.getD (i - 1) 0) / (2 * dt))

/-- Python `str.lower()` for ASCII argument strings: lower-case every
character. -/
def pyLower (s : String) : String :=
  ⟨s.data.map Char.toLower⟩

/-- `np.abs(vals)` with the entries where the mask is false replaced by
`-inf` (modelled as `⊥` in `WithBot ℚ`). -/
def maskNegInf (mask : List Bool) (vals : List ℚ) : List (WithBot ℚ) :=
  (List.range vals.length).map (fun i =>
    if mask.getD i false then ((|vals.getD i 0| : ℚ) : WithBot ℚ) else ⊥)

/-- `np.argmax` scan: first index of the maximum seen so far.  `best`
and `bv` hold the current best index and value, `i` the index of the
head of the remaining list. -/
def argmaxAux (best : ℕ) (bv : WithBot ℚ) (i : ℕ) : List (WithBot ℚ) → ℕ
  | [] => best
  | v :: rest =>
      if bv < v then argmaxAux i v (i + 1) rest
      else argmaxAux best bv (i + 1) rest

/-- `np.argmax`: index of the first occurrence of the maximum (`0` on
the empty array, which numpy rejects; callers guard length ≥ 2). -/
def argmaxIdx : List (WithBot ℚ) → ℕ
  | [] => 0
  | v :: rest => argmaxAux 0 v 1 rest

/-- The masked magnitude array whose argmax `detect_kneepoint` takes:
second-gradient magnitudes masked by curvature sign for the
`curvature` method, first-gradient magnitudes masked by slope sign for
the `slope` method. -/
def kneeFiltered (time accel : List ℚ) (pos curvature : Bool) : List (WithBot ℚ) :=
  let dt := npMean (npDiff time)
  let d_accel := npGradient accel dt
  let dd_accel := npGradient d_accel dt
  if curvature then
    maskNegInf (dd_accel.map (fun v => if pos then decide (v > 0) else decide (v < 0))) dd_accel
  else
    maskNegInf (d_accel.map (fun v => if pos then decide (v > 0) else decide (v < 0))) d_accel

/-- Embedding of `detect_kneepoint(time, accel, direction, method)` from
`src/utils/time_locators.py` for numeric time vectors.  The
`argrelextrema` turning-point indices the code computes are never used
for the returned result and are omitted. -/
def detect_kneepoint (time accel : List ℚ) (direction method : String) :
    Except String (ℕ × ℚ × ℚ) :=
  if pyLower direction ≠ "positive" ∧ pyLower direction ≠ "negative" then
    .error "direction must be either positive or negative."
  else if pyLower method ≠ "curvature" ∧ pyLower method ≠ "slope" then
    .error "method must be either curvature or slope."
  else
    let filtered :=
      kneeFiltered time accel (pyLower direction == "positive") (pyLower method == "curvature")
    let knee_idx := argmaxIdx filtered
    .ok (knee_idx, time.getD knee_idx 0, accel.getD knee_idx 0)

/-! ### General list lemmas used by several proofs -/

theorem filter_head?_eq_find? {α : Type} (p : α → Bool) (l : List α) :
    (l.filter p).head? = l.find? p := by
  induction l with
  | nil => rfl
  | cons a t ih =>
    by_cases h : p a
    · simp [List.filter_cons, List.find?_cons, h]
    · simp only [List.filter_cons, List.find?_cons, h]
      simp [h, ih]

theorem le_foldl_max (l : List ℚ) : ∀ a b : ℚ, b ≤ a → b ≤ l.foldl max a := by
  induction l with
  | nil => intro a b h; simpa using h
  | cons x t ih =>
    intro a b h
    exact ih (max a x) b (le_trans h (le_max_left a x))

theorem headD_eq_getD {α : Type} (l : List α) (d : α) : l.headD d = l.getD 0 d := by
  cases l <;> rfl

theorem getLastD_eq_getD {α : Type} (l : List α) (d : α) :
    l.getLastD d = l.getD (l.length - 1) d := by
  rw [List.getLastD_eq_getLast?, List.getLast?_eq_getElem?, List.getD_eq_getElem?_getD]

theorem getLastD_mem {α : Type} (l : List α) (d : α) (h : l ≠ []) : l.getLastD d ∈ l := by
  have hlen : l.length - 1 < l.length := by
    cases l with
    | nil => exact absurd rfl h
    | cons a t => simp
  rw [getLastD_eq_getD, List.getD_eq_getElem _ _ hlen]
  exact List.getElem_mem hlen

theorem headD_mem {α : Type} (l : List α) (d : α) (h : l ≠ []) : l.headD d ∈ l := by
  have hlen : 0 < l.length := List.length_pos.mpr h
  rw [headD_eq_getD, List.getD_eq_getElem _ _ hlen]
  exact List.getElem_mem hlen

theorem pairwise_getD_mono {α : Type} [Preorder α] (d : α) {l : List α}
    (h : l.Pairwise (· ≤ ·)) {i j : ℕ} (hij : i ≤ j) (hj : j < l.length) :
    l.getD i d ≤ l.getD j d := by
  rcases eq_or_lt_of_le hij with rfl | hlt
  · exact le_refl _
  · have hi : i < l.length := lt_trans hlt hj
    have := List.pairwise_iff_get.mp h ⟨i, hi⟩ ⟨j, hj⟩ hlt
    rw [List.getD_eq_getElem _ _ hi, List.getD_eq_getElem _ _ hj]
    simpa using this

theorem pairwise_getD_strict {α : Type} [Preorder α] (d : α) {l : List α}
    (h : l.Pairwise (· < ·)) {i j : ℕ} (hij : i < j) (hj : j < l.length) :
    l.getD i d < l.getD j d := by
  have hi : i < l.length := lt_trans hij hj
  have := List.pairwise_iff_get.mp h ⟨i, hi⟩ ⟨j, hj⟩ hij
  rw [List.getD_eq_getElem _ _ hi, List.getD_eq_getElem _ _ hj]
  simpa using this

theorem pairwise_headD_le_getLastD (l : List ℕ) (h : l.Pairwise (· < ·)) :
    l.headD 0 ≤ l.getLastD 0 := by
  cases l with
  | nil => exact le_refl _
  | cons a t =>
    have hne : (a :: t) ≠ [] := by simp
    rw [headD_eq_getD, getLastD_eq_getD]
    exact pairwise_getD_mono 0 (h.imp (fun hab => Nat.le_of_lt hab))
      (Nat.zero_le _) (by simp)

/-! ### Lemmas about the numpy-style helpers -/

theorem idxWhere_mem {p : ℚ → Bool} {l : List ℚ} {k : ℕ} :
    k ∈ idxWhere p l ↔ k < l.length ∧ p (l.getD k 0) = true := by
  simp [idxWhere, List.mem_filter, List.mem_range]

theorem idxWhere_pairwise (p : ℚ → Bool) (l : List ℚ) :
    (idxWhere p l).Pairwise (· < ·) :=
  (List.pairwise_lt_range l.length).filter _

theorem npMax_head_le (x : ℚ) (t : List ℚ) : x ≤ npMax (x :: t) :=
  le_foldl_max t x x (le_refl x)

theorem foldl_min_of_le : ∀ (t : List ℚ) (a : ℚ), (∀ x ∈ t, a ≤ x) → t.foldl min a = a := by
  intro t
  induction t with
  | nil => intro a _; rfl
  | cons x t' ih =>
    intro a h
    have hax : a ≤ x := h x (by simp)
    simp only [List.foldl_cons, min_eq_left hax]
    exact ih a (fun y hy => h y (by simp [hy]))

theorem npMin_of_sorted (l : List ℚ) (h : l.Pairwise (· < ·)) : npMin l = l.headD 0 := by
  cases l with
  | nil => rfl
  | cons a t =>
    have := (List.pairwise_cons.mp h).1
    simpa [npMin] using foldl_min_of_le t a (fun x hx => le_of_lt (this x hx))

theorem foldl_max_sorted : ∀ (t : List ℚ) (a : ℚ), (a :: t).Pairwise (· ≤ ·) →
    t.foldl max a = (a :: t).getLastD 0 := by
  intro t
  induction t with
  | nil => intro a _; rfl
  | cons b t' ih =>
    intro a h
    have hab : a ≤ b := (List.pairwise_cons.mp h).1 b (by simp)
    have ht : (b :: t').Pairwise (· ≤ ·) := (List.pairwise_cons.mp h).2
    simp only [List.foldl_cons, max_eq_right hab]
    rw [ih b ht]
    simp [List.getLastD_cons]

theorem npMax_of_sorted (l : List ℚ) (h : l.Pairwise (· < ·)) : npMax l = l.getLastD 0 := by
  cases l with
  | nil => rfl
  | cons a t =>
    simpa [npMax] using foldl_max_sorted t a (h.imp (fun hab => le_of_lt hab))

/-! ### Rounding lemmas -/

theorem roundHalfEven_nonneg (q : ℚ) (h : 0 ≤ q) : 0 ≤ roundHalfEven q := by
  have hf : (0 : ℤ) ≤ ⌊q⌋ := Int.floor_nonneg.mpr h
  unfold roundHalfEven
  split_ifs <;> omega

theorem pyRound3_nonneg (q : ℚ) (h : 0 ≤ q) : 0 ≤ pyRound3 q := by
  unfold pyRound3
  have h1 : (0 : ℚ) ≤ (roundHalfEven (q * 1000) : ℚ) := by
    exact_mod_cast roundHalfEven_nonneg (q * 1000) (by positivity)
  positivity

theorem pyRound3_zero : pyRound3 0 = 0 := by
  norm_num [pyRound3, roundHalfEven]

/-! ### Argmax lemmas -/

theorem argmaxAux_cases : ∀ (l : List (WithBot ℚ)) (best : ℕ) (bv : WithBot ℚ) (i : ℕ),
    argmaxAux best bv i l = best ∨
      (i ≤ argmaxAux best bv i l ∧ argmaxAux best bv i l < i + l.length) := by
  intro l
  induction l with
  | nil => intro best bv i; exact Or.inl rfl
  | cons v rest ih =>
    intro best bv i
    unfold argmaxAux
    by_cases h : bv < v
    · rw [if_pos h]
      rcases ih i v (i + 1) with h' | ⟨h1, h2⟩
      · rw [h']; right; simp
      · right
        refine ⟨le_trans (Nat.le_succ i) h1, ?_⟩
        simp only [List.length_cons]
        omega
    · rw [if_neg h]
      rcases ih best bv (i + 1) with h' | ⟨h1, h2⟩
      · exact Or.inl h'
      · right
        refine ⟨le_trans (Nat.le_succ i) h1, ?_⟩
        simp only [List.length_cons]
        omega

theorem argmaxIdx_lt_length (l : List (WithBot ℚ)) (h : l ≠ []) :
    argmaxIdx l < l.length := by
  cases l with
  | nil => exact absurd rfl h
  | cons v rest =>
    show argmaxAux 0 v 1 rest < (v :: rest).length
    rcases argmaxAux_cases rest 0 v 1 with h' | ⟨_, h2⟩
    · rw [h']; simp
    · simp only [List.length_cons]; omega

theorem argmaxAux_all_bot : ∀ (l : List (WithBot ℚ)), (∀ v ∈ l, v = ⊥) →
    ∀ (best i : ℕ), argmaxAux best ⊥ i l = best := by
  intro l
  induction l with
  | nil => intro _ best i; rfl
  | cons v rest ih =>
    intro h best i
    have hv : v = ⊥ := h v (by simp)
    unfold argmaxAux
    rw [hv, if_neg (lt_irrefl ⊥)]
    exact ih (fun x hx => h x (by simp [hx])) best (i + 1)

theorem argmaxIdx_all_bot (l : List (WithBot ℚ)) (h : ∀ v ∈ l, v = ⊥) :
    argmaxIdx l = 0 := by
  cases l with
  | nil => rfl
  | cons v rest =>
    show argmaxAux 0 v 1 rest = 0
    rw [h v (by simp)]
    exact argmaxAux_all_bot rest (fun x hx => h x (by simp [hx])) 0 1

/-! ### Gradient and mask length lemmas -/

theorem npGradient_length (f : List ℚ) (dt : ℚ) : (npGradient f dt).length = f.length := by
  simp [npGradient]

theorem maskNegInf_length (mask : List Bool) (vals : List ℚ) :
    (maskNegInf mask vals).length = vals.length := by
  simp [maskNegInf]

theorem kneeFiltered_length (time accel : List ℚ) (pos curvature : Bool) :
    (kneeFiltered time accel pos curvature).length = accel.length := by
  unfold kneeFiltered
  cases curvature <;> simp [maskNegInf_length, npGradient_length]

/-! ### Merge-loop lemmas -/

theorem mergeAux_chain'_and_head (w : ℚ) :
    ∀ (rest : List (ℚ × ℚ)) (cs ce : ℚ),
      (mergeAux w cs ce rest).Chain' (fun p q => w < q.1 - p.2) ∧
        ∃ e tl, mergeAux w cs ce rest = (cs, e) :: tl := by
  intro rest
  induction rest with
  | nil =>
    intro cs ce
    exact ⟨List.chain'_singleton _, ce, [], rfl⟩
  | cons p rest' ih =>
    intro cs ce
    obtain ⟨ns, ne⟩ := p
    unfold mergeAux
    by_cases h : ns - ce ≤ w
    · rw [if_pos h]; exact ih cs ne
    · rw [if_neg h]
      obtain ⟨hchain, e, tl, heq⟩ := ih ns ne
      refine ⟨?_, ce, mergeAux w ns ne rest', rfl⟩
      rw [heq]
      rw [heq] at hchain
      exact List.chain'_cons.mpr ⟨by simpa using lt_of_not_le h, hchain⟩

theorem mergePairs_chain' (w : ℚ) (l : List (ℚ × ℚ)) :
    (mergePairs w l).Chain' (fun p q => w < q.1 - p.2) := by
  cases l with
  | nil => simp [mergePairs]
  | cons p rest =>
    obtain ⟨s, e⟩ := p
    exact (mergeAux_chain'_and_head w rest s e).1

theorem mergeAux_of_chain' (w : ℚ) :
    ∀ (rest : List (ℚ × ℚ)) (cs ce : ℚ),
      (((cs, ce) :: rest).Chain' (fun p q => w < q.1 - p.2)) →
      mergeAux w cs ce rest = (cs, ce) :: rest := by
  intro rest
  induction rest with
  | nil => intro cs ce _; rfl
  | cons p rest' ih =>
    intro cs ce hchain
    obtain ⟨ns, ne⟩ := p
    have h1 : w < ns - ce := by
      have := List.chain'_cons.mp hchain
      simpa using this.1
    have h2 : ((ns, ne) :: rest').Chain' (fun p q => w < q.1 - p.2) :=
      (List.chain'_cons.mp hchain).2
    unfold mergeAux
    rw [if_neg (not_le.mpr h1)]
    rw [ih ns ne h2]

theorem mergePairs_fixpoint (w : ℚ) (l : List (ℚ × ℚ))
    (h : l.Chain' (fun p q => w < q.1 - p.2)) : mergePairs w l = l := by
  cases l with
  | nil => rfl
  | cons p rest =>
    obtain ⟨s, e⟩ := p
    exact mergeAux_of_chain' w rest s e h

/-! ### FCW previous-sample lemma -/

theorem fcwPrev_getD (f : List ℚ) (i : ℕ) (hi : i < f.length) :
    (fcwPrev f).getD i 0 = if i = 0 then f.getD 0 0 else f.getD (i - 1) 0 := by
  cases f with
  | nil => simp at hi
  | cons h t =>
    have hroll : npRoll1 (h :: t) = (h :: t).getLast (by simp) :: (h :: t).dropLast := by
      unfold npRoll1
      rw [List.getLast?_eq_getLast _ (by simp)]
    unfold fcwPrev
    rw [hroll]
    simp only [List.headD_cons, List.set_cons_zero]
    cases i with
    | zero => rfl
    | succ k =>
      simp only [Nat.succ_ne_zero, if_false, List.getD_cons_succ, Nat.succ_sub_one]
      have hk : k < ((h :: t).dropLast).length := by
        simp only [List.length_dropLast]
        omega
      rw [List.getD_eq_getElem _ _ hk, List.getElem_dropLast]
      rw [List.getD_eq_getElem]

/-- A last-minus-first timestamp difference over an ascending index
list is non-negative when the time vector is monotone. -/
theorem segment_duration_nonneg (time : List ℚ) (htime : time.Chain' (· ≤ ·))
    (start : ℕ) (l : List ℕ) (hpw : l.Pairwise (· < ·)) (hne : l ≠ [])
    (hbound : ∀ k ∈ l, start + k < time.length) :
    0 ≤ time.getD (start + l.getLastD 0) 0 - time.getD (start + l.headD 0) 0 := by
  have hpw_le : time.Pairwise (· ≤ ·) := List.chain'_iff_pairwise.mp htime
  have hhl : l.headD 0 ≤ l.getLastD 0 := pairwise_headD_le_getLastD l hpw
  have hlast_mem : l.getLastD 0 ∈ l := getLastD_mem l 0 hne
  have hlast_lt : start + l.getLastD 0 < time.length := hbound _ hlast_mem
  have hmono := pairwise_getD_mono 0 hpw_le (Nat.add_le_add_left hhl start) hlast_lt
  linarith

/-! ### Interpolation lemmas -/

theorem npInterp_breakpoint :
    ∀ (xs ys : List ℚ), xs.Pairwise (· < ·) → xs.length = ys.length →
      ∀ i, i < xs.length → npInterp (xs.getD i 0) xs ys = ys.getD i 0 := by
  intro xs
  induction xs with
  | nil => intro ys _ _ i hi; simp at hi
  | cons x0 rest ih =>
    intro ys hpw hlen i hi
    cases ys with
    | nil => simp at hlen
    | cons y0 ys' =>
      cases rest with
      | nil =>
        have hi0 : i = 0 := by simpa using hi
        subst hi0
        simp [npInterp]
      | cons x1 xr =>
        cases ys' with
        | nil => simp at hlen
        | cons y1 yr =>
          cases i with
          | zero => simp [npInterp]
          | succ k =>
            have hk : k < (x1 :: xr).length := by
              simpa using hi
            have hmem : (x1 :: xr).getD k 0 ∈ (x1 :: xr) := by
              rw [List.getD_eq_getElem _ _ hk]
              exact List.getElem_mem hk
            have hx0 : x0 < (x1 :: xr).getD k 0 :=
              (List.pairwise_cons.mp hpw).1 _ hmem
            have hpw' : (x1 :: xr).Pairwise (· < ·) := (List.pairwise_cons.mp hpw).2
            have hlen' : (x1 :: xr).length = (y1 :: yr).length := by
              simpa using hlen
            cases k with
            | zero =>
              have hx01 : x0 < x1 := by simpa using hx0
              have hne : x1 - x0 ≠ 0 := sub_ne_zero.mpr (ne_of_gt hx01)
              show npInterp x1 (x0 :: x1 :: xr) (y0 :: y1 :: yr) = y1
              unfold npInterp
              rw [if_neg (not_le.mpr hx01), if_pos (le_refl x1)]
              field_simp
            | succ m =>
              have hm : m + 1 < (x1 :: xr).length := hk
              have hx1 : x1 < (x1 :: xr).getD (m + 1) 0 := by
                have := pairwise_getD_strict 0 hpw' (Nat.succ_pos m) hm
                simpa using this
              show npInterp ((x0 :: x1 :: xr).getD (m + 2) 0) (x0 :: x1 :: xr) (y0 :: y1 :: yr)
                  = (y0 :: y1 :: yr).getD (m + 2) 0
              have hgd : (x0 :: x1 :: xr).getD (m + 2) 0 = (x1 :: xr).getD (m + 1) 0 := rfl
              rw [hgd]
              unfold npInterp
              rw [if_neg (not_le.mpr hx0), if_neg (not_le.mpr hx1)]
              exact ih (y1 :: yr) hpw' hlen' (m + 1) hm

/-! ### Claim theorems -/

/-- C1: for equal-length, non-empty time and AEB request arrays,
`detect_aeb_events` marks a start at exactly the samples transitioning
into level 1 or 2 from a level that is neither, marks an end at exactly
the samples transitioning from level 1, 2 or 3 to 0, and emits, for
each start in ascending order, the start's timestamp paired with the
timestamp of the first end index after it, falling back to
`min(time[-1], time[start] + post_time)` when no later end exists. -/
theorem detect_aeb_events_spec (time req : List ℚ) (post_time : ℚ)
    (hlen : time.length = req.length) (hpos : 0 < req.length) :
    detect_aeb_events time req post_time =
      .ok ((aebStartIndices req).map (fun s => time.getD s 0),
           (aebStartIndices req).map (fun s =>
             match (aebEndIndices req).find? (fun e => decide (s < e)) with
             | some e => time.getD e 0
             | none => min (lastD time) (time.getD s 0 + post_time))) ∧
    (∀ i, i ∈ aebStartIndices req ↔
        1 ≤ i ∧ i < req.length ∧ aebActiveLevel (req.getD i 0) ∧
          ¬ aebActiveLevel (req.getD (i - 1) 0)) ∧
    (∀ i, i ∈ aebEndIndices req ↔
        1 ≤ i ∧ i < req.length ∧ aebEndLevel (req.getD (i - 1) 0) ∧ req.getD i 0 = 0) ∧
    (aebStartIndices req).Pairwise (· < ·) ∧
    (aebEndIndices req).Pairwise (· < ·) := by
  refine ⟨?_, ?_, ?_, ?_, ?_⟩
  · unfold detect_aeb_events
    rw [if_neg (by push_neg; exact ⟨hlen, by omega⟩)]
    dsimp only
    refine congrArg Except.ok (congrArg _ ?_)
    refine List.map_congr_left (fun s _ => ?_)
    unfold aebPairEnd
    rw [filter_head?_eq_find?]
  · intro i
    unfold aebStartIndices
    rw [List.mem_filter, List.mem_range']
    constructor
    · rintro ⟨⟨k, hk, rfl⟩, hp⟩
      have hprop := of_decide_eq_true hp
      exact ⟨by omega, by omega, hprop.1, hprop.2⟩
    · rintro ⟨hone, hlt, h3, h4⟩
      exact ⟨⟨i - 1, by omega, by omega⟩, decide_eq_true ⟨h3, h4⟩⟩
  · intro i
    unfold aebEndIndices
    rw [List.mem_filter, List.mem_range']
    constructor
    · rintro ⟨⟨k, hk, rfl⟩, hp⟩
      have hprop := of_decide_eq_true hp
      exact ⟨by omega, by omega, hprop.1, hprop.2⟩
    · rintro ⟨hone, hlt, h3, h4⟩
      exact ⟨⟨i - 1, by omega, by omega⟩, decide_eq_true ⟨h3, h4⟩⟩
  · exact (List.pairwise_lt_range' 1 (req.length - 1)).filter _
  · exact (List.pairwise_lt_range' 1 (req.length - 1)).filter _

/-- C1 witness: request `[0, 1, 1, 0]` over time `[0, 1, 2, 3]` yields
the single event starting at `1` and ending at `3`. -/
theorem detect_aeb_events_spec_witness :
    detect_aeb_events [0, 1, 2, 3] [0, 1, 1, 0] 3 = .ok ([1], [3]) :=
  ((detect_aeb_events_spec [0, 1, 2, 3] [0, 1, 1, 0] 3 rfl (by decide)).1).trans (by rfl)

/-- The code's roll-and-overwrite edge scan finds exactly the rising
edges the specification describes. -/
theorem fcw_rising_edges (f : List ℚ) :
    idxWhere2 (fun p c => decide (p = 0 ∧ (c = 2 ∨ c = 3))) (fcwPrev f) f =
      fcwRisingIdx f := by
  unfold idxWhere2 fcwRisingIdx
  refine List.filter_congr (fun i hi => ?_)
  rw [List.mem_range] at hi
  rw [fcwPrev_getD f i hi]

/-- The code's roll-and-overwrite edge scan finds exactly the falling
edges the specification describes. -/
theorem fcw_falling_edges (f : List ℚ) :
    idxWhere2 (fun p c => decide ((p = 2 ∨ p = 3) ∧ c = 0)) (fcwPrev f) f =
      fcwFallingIdx f := by
  unfold idxWhere2 fcwFallingIdx
  refine List.filter_congr (fun i hi => ?_)
  rw [List.mem_range] at hi
  rw [fcwPrev_getD f i hi]

/-- C2 counterexample: on the valid equal-length input with request
`[0, 2, 1, 0, 2, 1, 0, 2]` there are three rising edges but no falling
edge (the signal decays through level 1), so after appending the single
synthetic end the merge loop still reads `end_times[1]` out of bounds
and the function raises `IndexError` instead of returning the merged
events the claim describes. -/
theorem detect_fcw_events_crash_counterexample :
    detect_fcw_events [0, 1, 2, 3, 4, 5, 6, 7] [0, 2, 1, 0, 2, 1, 0, 2] 2 =
      .error "IndexError: index out of bounds in merge loop" := by rfl

/-- C2 amended: for equal-length, non-empty time/request input in which
the rising edges outnumber the falling edges by at most one (so that
the single synthetic final-timestamp end keeps the merge loop in
bounds), `detect_fcw_events` returns exactly the specification's
events: starts at the rising edges (previous sample 0, current 2 or 3,
the first sample's previous value being itself), ends at the falling
edges (previous 2/3, current 0), one synthetic final-timestamp end
appended when starts outnumber ends, and consecutive events with gap at
most `merge_window` merged. -/
theorem detect_fcw_events_spec (time fcw : List ℚ) (merge_window : ℚ)
    (hlen : time.length = fcw.length) (hpos : 0 < fcw.length)
    (hbal : (fcwRisingIdx fcw).length ≤ (fcwFallingIdx fcw).length + 1) :
    detect_fcw_events time fcw merge_window = .ok (fcwEventsSpec time fcw merge_window) := by
  unfold detect_fcw_events fcwEventsSpec
  rw [if_neg (by push_neg; exact ⟨hlen, by omega⟩)]
  dsimp only
  rw [fcw_rising_edges, fcw_falling_edges]
  by_cases hz : ((fcwRisingIdx fcw).map (fun i => time.getD i 0)).length = 0
  · rw [if_pos hz, if_pos hz]
  · rw [if_neg hz, if_neg hz]
    have hsl : ((fcwRisingIdx fcw).map (fun i => time.getD i 0)).length =
        (fcwRisingIdx fcw).length := List.length_map _ _
    have hel : ((fcwFallingIdx fcw).map (fun i => time.getD i 0)).length =
        (fcwFallingIdx fcw).length := List.length_map _ _
    rw [if_neg ?hguard]
    case hguard =>
      split_ifs with hc
      · rw [List.length_append]
        simp only [List.length_singleton]
        omega
      · omega

/-- C2 amended witness: the concrete scenario — request
`[0,0,2,2,0,0,3,3,0]` at 1 Hz with merge window `2.0` — produces the
single merged event `(2.0, 8.0)`. -/
theorem detect_fcw_events_spec_witness :
    detect_fcw_events [0, 1, 2, 3, 4, 5, 6, 7, 8] [0, 0, 2, 2, 0, 0, 3, 3, 0] 2 =
      .ok ([2], [8]) := by
  rw [detect_fcw_events_spec [0, 1, 2, 3, 4, 5, 6, 7, 8] [0, 0, 2, 2, 0, 0, 3, 3, 0] 2
    rfl (by decide) (by decide)]
  have h1 : fcwRisingIdx [0, 0, 2, 2, 0, 0, 3, 3, 0] = [2, 6] := by rfl
  have h2 : fcwFallingIdx [0, 0, 2, 2, 0, 0, 3, 3, 0] = [4, 8] := by rfl
  unfold fcwEventsSpec
  rw [h1, h2]
  norm_num [mergePairs, mergeAux]

/-- C6: the FCW merge step is idempotent on the output of
`detect_fcw_events`: re-merging the returned `(starts, ends)` pairs
with the same window changes nothing — equivalently every consecutive
pair of returned events is separated by a gap exceeding the merge
window. -/
theorem fcw_merge_idempotent (time fcw : List ℚ) (merge_window : ℚ) (ss es : List ℚ)
    (h : detect_fcw_events time fcw merge_window = .ok (ss, es)) :
    mergePairs merge_window (ss.zip es) = ss.zip es ∧
    (ss.zip es).Chain' (fun p q => merge_window < q.1 - p.2) := by
  simp only [detect_fcw_events] at h
  split_ifs at h
  all_goals first
    | exact Except.noConfusion h
    | (injection h with h
       rw [Prod.mk.injEq] at h
       obtain ⟨hss, hes⟩ := h
       subst hss
       subst hes
       first
         | exact ⟨rfl, List.chain'_nil⟩
         | (rw [List.zip_map']
            simp only [Prod.mk.eta, List.map_id, List.map_id']
            exact ⟨mergePairs_fixpoint _ _ (mergePairs_chain' _ _),
                   mergePairs_chain' _ _⟩))

/-- C6 witness: a single FCW event from request `[0, 2, 0]` is left
unchanged by a second merge pass. -/
theorem fcw_merge_idempotent_witness :
    mergePairs 2 (([1] : List ℚ).zip ([2] : List ℚ)) = ([1] : List ℚ).zip [2] ∧
    ((([1] : List ℚ).zip ([2] : List ℚ)).Chain' (fun p q => (2 : ℚ) < q.1 - p.2)) :=
  fcw_merge_idempotent [0, 1, 2] [0, 2, 0] 2 [1] [2] (by rfl)

/-- C4: the claim is right about the intended behavior and the code is
wrong: the staged module never imports numpy, so
`interpolate_threshold_clamped` raises `NameError` at its first
statement on every call — in particular on the claim's own concrete
scenario — instead of the clamped piecewise-linear interpolation its
docstring and the specification document.  That intended behavior,
`interpolate_threshold_clamped_spec`, does satisfy everything the claim
states: first threshold at or below the smallest breakpoint, last
threshold at or above the largest, the breakpoint's own threshold at a
breakpoint, `15` at query `75` and the clamped `20` at `200` on the
table `x = [0,50,100]`, `y = [5,10,20]`. -/
theorem interpolate_code_bug (xs ys : List ℚ)
    (hsort : xs.Pairwise (· < ·)) (hlen : xs.length = ys.length) (hn : 2 ≤ xs.length) :
    interpolate_threshold_clamped [[0, 50, 100], [5, 10, 20]] 75 =
      .error "NameError: name np is not defined" ∧
    (∀ x_query, x_query ≤ xs.headD 0 →
        interpolate_threshold_clamped_spec [xs, ys] x_query = .ok (ys.headD 0)) ∧
    (∀ x_query, xs.getLastD 0 ≤ x_query →
        interpolate_threshold_clamped_spec [xs, ys] x_query = .ok (ys.getLastD 0)) ∧
    (∀ i, i < xs.length →
        interpolate_threshold_clamped_spec [xs, ys] (xs.getD i 0) = .ok (ys.getD i 0)) ∧
    interpolate_threshold_clamped_spec [[0, 50, 100], [5, 10, 20]] 75 = .ok 15 ∧
    interpolate_threshold_clamped_spec [[0, 50, 100], [5, 10, 20]] 200 = .ok 20 := by
  have hlen_pos : 0 < xs.length := by omega
  have heval : ∀ q, interpolate_threshold_clamped_spec [xs, ys] q =
      .ok (npInterp (npClip q (npMin xs) (npMax xs)) xs ys) := by
    intro q
    unfold interpolate_threshold_clamped_spec
    dsimp only
    rw [if_neg (by push_neg; exact ⟨hlen, by omega⟩)]
  have hmin : npMin xs = xs.headD 0 := npMin_of_sorted xs hsort
  have hmax : npMax xs = xs.getLastD 0 := npMax_of_sorted xs hsort
  have hlast_lt : xs.length - 1 < xs.length := by omega
  have hhl : xs.headD 0 ≤ xs.getLastD 0 := by
    rw [headD_eq_getD, getLastD_eq_getD]
    exact pairwise_getD_mono 0 (hsort.imp (fun hab => le_of_lt hab)) (Nat.zero_le _) hlast_lt
  have hbrk := npInterp_breakpoint xs ys hsort hlen
  refine ⟨rfl, ?_, ?_, ?_, ?_, ?_⟩
  · intro q hq
    rw [heval, hmin, hmax]
    have hclip : npClip q (xs.headD 0) (xs.getLastD 0) = xs.headD 0 := by
      unfold npClip
      rw [max_eq_right hq, min_eq_left hhl]
    rw [hclip, headD_eq_getD, hbrk 0 hlen_pos, ← headD_eq_getD]
  · intro q hq
    rw [heval, hmin, hmax]
    have hclip : npClip q (xs.headD 0) (xs.getLastD 0) = xs.getLastD 0 := by
      unfold npClip
      rw [max_eq_left (le_trans hhl hq), min_eq_right hq]
    rw [hclip, getLastD_eq_getD, hbrk _ hlast_lt, hlen, ← getLastD_eq_getD]
  · intro i hi
    rw [heval, hmin, hmax]
    have hlow : xs.headD 0 ≤ xs.getD i 0 := by
      rw [headD_eq_getD]
      exact pairwise_getD_mono 0 (hsort.imp (fun hab => le_of_lt hab)) (Nat.zero_le _) hi
    have hhigh : xs.getD i 0 ≤ xs.getLastD 0 := by
      rw [getLastD_eq_getD]
      exact pairwise_getD_mono 0 (hsort.imp (fun hab => le_of_lt hab)) (by omega) hlast_lt
    have hclip : npClip (xs.getD i 0) (xs.headD 0) (xs.getLastD 0) = xs.getD i 0 := by
      unfold npClip
      rw [max_eq_left hlow, min_eq_left hhigh]
    rw [hclip, hbrk i hi]
  · unfold interpolate_threshold_clamped_spec
    norm_num [npMin, npMax, npClip, npInterp]
  · unfold interpolate_threshold_clamped_spec
    norm_num [npMin, npMax, npClip, npInterp]

/-- C4 witness: on the concrete table, a query below the smallest
breakpoint of the intended interpolation returns the first threshold
value. -/
theorem interpolate_code_bug_witness :
    interpolate_threshold_clamped_spec [[0, 50, 100], [5, 10, 20]] (-5) =
      .ok (([5, 10, 20] : List ℚ).headD 0) :=
  (interpolate_code_bug [0, 50, 100] [5, 10, 20] (by decide) (by decide)
    (by decide)).2.1 (-5) (by decide)

/-- C3: every window the Window Extractor keeps satisfies
`t_min ≤ window_start < window_end ≤ t_max`, with
`window_start = max(start − pre_time, t_min)` and
`window_end = min(end + post_time, t_max)` when a matching end exists,
else `min(start + post_time, t_max)`, degenerate candidates being
skipped; and the concrete request `start = 10`, no end, `pre = 6`,
`post = 3` on a source spanning `[0, 12]` yields the window `[4, 12]`. -/
theorem extract_windows_bounds :
    (∀ (start_times end_times : List ℚ) (pre_time post_time t_min t_max : ℚ) (w : ℚ × ℚ),
        w ∈ extractWindows start_times end_times pre_time post_time t_min t_max →
        t_min ≤ w.1 ∧ w.1 < w.2 ∧ w.2 ≤ t_max) ∧
    extractWindows [10] [] 6 3 0 12 = [(4, 12)] := by
  constructor
  · intro st et pre post tmin tmax w hw
    unfold extractWindows at hw
    split at hw
    · simp at hw
    · rw [List.mem_filterMap] at hw
      obtain ⟨je, _, hje⟩ := hw
      dsimp only at hje
      split at hje <;> split at hje <;>
        first
        | exact Option.noConfusion hje
        | (injection hje with hje; subst hje;
           exact ⟨le_max_right _ _, not_le.mp (by assumption), min_le_right _ _⟩)
  · show extractWindows [10] [] 6 3 0 12 = [(4, 12)]
    unfold extractWindows
    norm_num [List.enum, List.enumFrom, List.filterMap_cons]

/-- C3 witness: the concrete scenario window `[4, 12]` satisfies the
bounds for its source span `[0, 12]`. -/
theorem extract_windows_bounds_witness :
    (0 : ℚ) ≤ (4, (12 : ℚ)).1 ∧ (4, (12 : ℚ)).1 < (4, (12 : ℚ)).2 ∧ (4, (12 : ℚ)).2 ≤ 12 :=
  extract_windows_bounds.1 [10] [] 6 3 0 12 (4, 12)
    (by rw [extract_windows_bounds.2]; exact List.mem_singleton.mpr rfl)

/-- C7: `interpolate_threshold_clamped` fails for every malformed
table — mismatched row lengths or fewer than 2 points — and, being
pure, has no side effects on the table.  In the staged module this
holds because the function raises `NameError` on every call, the
module having no numpy import, so in particular it fails on every
malformed table before any threshold could be produced. -/
theorem interpolate_malformed_raises (table : List (List ℚ)) (x_query : ℚ)
    (_h : ¬ (∀ r ∈ table, r.length = (table.headD []).length) ∨
          ∃ r ∈ table, r.length < 2) :
    ∃ msg, interpolate_threshold_clamped table x_query = .error msg :=
  ⟨_, rfl⟩

/-- C7 witness: the single-point table `[[5], [10]]` (fewer than 2
points) fails. -/
theorem interpolate_malformed_raises_witness :
    ∃ msg, interpolate_threshold_clamped [[5], [10]] 0 = .error msg :=
  interpolate_malformed_raises [[5], [10]] 0 (Or.inr ⟨[5], by decide, by decide⟩)

/-- C8: both event boundary detectors reject degenerate input — a time
array and request array of different lengths, or two empty arrays — by
raising `ValueError` rather than returning empty results. -/
theorem detectors_raise_on_degenerate (time req : List ℚ) (post_time merge_window : ℚ)
    (h : time.length ≠ req.length ∨ (time = [] ∧ req = [])) :
    (∃ m, detect_aeb_events time req post_time = .error m) ∧
    (∃ m, detect_fcw_events time req merge_window = .error m) := by
  have hc : time.length ≠ req.length ∨ time.length = 0 := by
    rcases h with h | ⟨h1, _⟩
    · exact Or.inl h
    · right; simp [h1]
  constructor
  · unfold detect_aeb_events
    rw [if_pos hc]
    exact ⟨_, rfl⟩
  · unfold detect_fcw_events
    rw [if_pos hc]
    exact ⟨_, rfl⟩

/-- C8 witness: mismatched lengths raise in both detectors. -/
theorem detectors_raise_on_degenerate_witness :
    (∃ m, detect_aeb_events [1] [] 3 = .error m) ∧
    (∃ m, detect_fcw_events [1] [] 2 = .error m) :=
  detectors_raise_on_degenerate [1] [] 3 2 (Or.inl (by decide))

/-- C9: for equal-length time/accel input with at least two samples and
valid direction and method arguments, `detect_kneepoint` returns an
index within `[0, len(accel) − 1]`, and when no sample satisfies the
requested direction mask it returns index `0` (the argmax of an
all-`-inf` masked array), never a missing value. -/
theorem detect_kneepoint_index_bounds (time accel : List ℚ) (direction method : String)
    (_hlen : time.length = accel.length) (h2 : 2 ≤ accel.length)
    (i : ℕ) (kt kv : ℚ)
    (h : detect_kneepoint time accel direction method = .ok (i, kt, kv)) :
    i < accel.length ∧
    ((∀ v ∈ kneeFiltered time accel (pyLower direction == "positive")
        (pyLower method == "curvature"), v = ⊥) → i = 0) := by
  unfold detect_kneepoint at h
  split_ifs at h
  injection h with h
  rw [Prod.mk.injEq] at h
  obtain ⟨hi, -⟩ := h
  subst hi
  have hflen : (kneeFiltered time accel (pyLower direction == "positive")
      (pyLower method == "curvature")).length = accel.length :=
    kneeFiltered_length time accel _ _
  have hfne : kneeFiltered time accel (pyLower direction == "positive")
      (pyLower method == "curvature") ≠ [] := by
    intro hnil
    rw [hnil] at hflen
    simp at hflen
    omega
  constructor
  · rw [← hflen]
    exact argmaxIdx_lt_length _ hfne
  · intro hbot
    exact argmaxIdx_all_bot _ hbot

/-- C9 witness: on accel `[0, 1]` with direction `negative` (which no
sample satisfies, since the gradient is positive everywhere) and method
`slope`, the detector returns index `0`. -/
theorem detect_kneepoint_index_bounds_witness :
    (0 : ℕ) < ([0, 1] : List ℚ).length ∧
    ((∀ v ∈ kneeFiltered [0, 1] [0, 1] (pyLower "negative" == "positive")
        (pyLower "slope" == "curvature"), v = ⊥) → (0 : ℕ) = 0) := by
  refine detect_kneepoint_index_bounds [0, 1] [0, 1] "negative" "slope"
    (by decide) (by decide) 0 0 0 ?_
  have hb1 : (pyLower "negative" == "positive") = false := by decide
  have hb2 : (pyLower "slope" == "curvature") = false := by decide
  have hdiff : npDiff [0, 1] = [1] := by norm_num [npDiff]
  have hmean : npMean [1] = 1 := by norm_num [npMean]
  have hgrad : npGradient [0, 1] 1 = [1, 1] := by
    norm_num [npGradient, List.range_succ]
  have hmask : ([1, 1] : List ℚ).map (fun v => decide (v < 0)) = [false, false] := by
    norm_num
  have hfilt : maskNegInf [false, false] [1, 1] = [⊥, ⊥] := by
    norm_num [maskNegInf, List.range_succ]
  have hargmax : argmaxIdx [⊥, ⊥] = (0 : ℕ) := by
    simp [argmaxIdx, argmaxAux]
  unfold detect_kneepoint
  rw [if_neg (by decide), if_neg (by decide), hb1, hb2]
  simp only [kneeFiltered, Bool.false_eq_true, if_false]
  rw [hdiff, hmean, hgrad, hmask, hfilt, hargmax]
  rfl

/-- C10: whenever `compute_throttle` runs with a valid start index, the
recorded maximum pedal position is at least the pedal position at the
event start (the maximum is taken over the segment beginning at the
start sample itself), so the pedal-position increment is non-negative. -/
theorem compute_throttle_inc_nonneg (throttle : List ℚ) (i : ℕ)
    (pedal_pos_inc_th : ℚ) (r : ThrottleKpis)
    (h : compute_throttle throttle (some i) pedal_pos_inc_th = some r) :
    r.pedalPosAtStart ≤ r.pedalPosMax ∧ 0 ≤ r.pedalPosInc ∧
    r.pedalPosInc = r.pedalPosMax - r.pedalPosAtStart := by
  simp only [compute_throttle] at h
  split at h
  · exact absurd h (by simp)
  · rename_i hlen
    have hi : i < throttle.length := not_le.mp hlen
    injection h with h
    subst h
    dsimp only
    have hdrop : throttle.drop i = throttle.getD i 0 :: throttle.drop (i + 1) := by
      rw [List.getD_eq_getElem _ _ hi]
      exact List.drop_eq_getElem_cons hi
    have hmax : throttle.getD i 0 ≤ npMax (throttle.drop i) := by
      rw [hdrop]
      exact npMax_head_le _ _
    exact ⟨hmax, by linarith, rfl⟩

/-- C10 witness: concrete throttle trace `[5, 3, 9, 2]` with start
index `1`. -/
theorem compute_throttle_inc_nonneg_witness :
    (ThrottleKpis.mk 3 9 6 true true).pedalPosAtStart ≤
      (ThrottleKpis.mk 3 9 6 true true).pedalPosMax ∧
    0 ≤ (ThrottleKpis.mk 3 9 6 true true).pedalPosInc ∧
    (ThrottleKpis.mk 3 9 6 true true).pedalPosInc =
      (ThrottleKpis.mk 3 9 6 true true).pedalPosMax -
        (ThrottleKpis.mk 3 9 6 true true).pedalPosAtStart :=
  compute_throttle_inc_nonneg [5, 3, 9, 2] 1 2 ⟨3, 9, 6, true, true⟩
    (by norm_num [compute_throttle, npMax])

/-- C5: whenever `compute_brake_mode` runs to completion with a valid
start index on a monotone time vector, both brake-mode durations are
non-negative, each is exactly `0` when its mode is not detected, and
when both modes are present the partial-braking duration is computed
only over the partial-braking samples before the first full-braking
sample. -/
theorem compute_brake_mode_spec (target_decel time : List ℚ) (start : ℕ)
    (pb_tgt fb_tgt tol : ℚ) (r : BrakeModeKpis)
    (htime : time.Chain' (· ≤ ·))
    (h : compute_brake_mode target_decel time (some start) pb_tgt fb_tgt tol = some r) :
    0 ≤ r.pbDur ∧ 0 ≤ r.fbDur ∧
    (r.isPBOn = false → r.pbDur = 0) ∧
    (r.isFBOn = false → r.fbDur = 0) ∧
    (r.isPBOn = true → r.isFBOn = true →
      r.pbDur = pbDurRestricted target_decel time start pb_tgt fb_tgt tol) := by
  simp only [compute_brake_mode] at h
  split at h
  · exact absurd h (by simp)
  rename_i hstartge
  have hstart : start < time.length := not_le.mp hstartge
  obtain ⟨rpb, rfb, rpbon, rfbon⟩ := r
  rw [Option.some.injEq, BrakeModeKpis.mk.injEq] at h
  obtain ⟨hpbDur, hfbDur, hisPB, hisFB⟩ := h
  dsimp only
  set seg := (target_decel.drop start).take (time.length - start) with hseg_def
  set pbI := pbCandidates seg pb_tgt tol with hpbI_def
  set fbI := fbCandidates seg fb_tgt tol with hfbI_def
  have hseg_le : seg.length ≤ time.length - start := by
    rw [hseg_def, List.length_take]
    exact min_le_left _ _
  have hpb_pw : pbI.Pairwise (· < ·) := idxWhere_pairwise _ _
  have hfb_pw : fbI.Pairwise (· < ·) := idxWhere_pairwise _ _
  have hpb_bound : ∀ k ∈ pbI, start + k < time.length := by
    intro k hk
    have hk2 : k < seg.length := (idxWhere_mem.mp hk).1
    omega
  have hfb_bound : ∀ k ∈ fbI, start + k < time.length := by
    intro k hk
    have hk2 : k < seg.length := (idxWhere_mem.mp hk).1
    omega
  by_cases hfb : 0 < fbI.length
  · have hfb' : decide (0 < fbI.length) = true := decide_eq_true hfb
    rw [if_pos hfb'] at hfbDur
    rw [hfb'] at hisFB
    subst hisFB
    have hfbne : fbI ≠ [] := by
      intro hnil
      rw [hnil] at hfb
      simp at hfb
    have hfb_nonneg : 0 ≤ pyRound3 (time.getD (start + fbI.getLastD 0) 0 -
        time.getD (start + fbI.headD 0) 0) :=
      pyRound3_nonneg _ (segment_duration_nonneg time htime start fbI hfb_pw hfbne hfb_bound)
    subst hfbDur
    by_cases hpb : 0 < pbI.length
    · rw [if_pos hpb, if_pos hfb'] at hpbDur hisPB
      by_cases hflt : pbI.filter (fun k => decide (start + k < start + fbI.headD 0)) = []
      · rw [if_pos hflt] at hpbDur hisPB
        dsimp only at hpbDur hisPB
        rw [pyRound3_zero] at hpbDur
        subst hpbDur
        subst hisPB
        exact ⟨le_refl 0, hfb_nonneg, fun _ => rfl, by simp, by simp⟩
      · rw [if_neg hflt] at hpbDur hisPB
        dsimp only at hpbDur hisPB
        subst hpbDur
        subst hisPB
        have hflt_pw : (pbI.filter
            (fun k => decide (start + k < start + fbI.headD 0))).Pairwise (· < ·) :=
          hpb_pw.filter _
        have hflt_bound : ∀ k ∈ pbI.filter
            (fun k => decide (start + k < start + fbI.headD 0)), start + k < time.length :=
          fun k hk => hpb_bound k (List.mem_of_mem_filter hk)
        have hpb_nonneg := pyRound3_nonneg _
          (segment_duration_nonneg time htime start _ hflt_pw hflt hflt_bound)
        refine ⟨hpb_nonneg, hfb_nonneg, by simp, by simp, fun _ _ => ?_⟩
        have hfe : pbI.filter (fun k => decide (start + k < start + fbI.headD 0)) =
            pbI.filter (fun k => decide (k < fbI.headD 0)) :=
          List.filter_congr (fun k _ => decide_eq_decide.mpr (by omega))
        unfold pbDurRestricted pbBeforeFirstFb
        dsimp only
        rw [← hpbI_def, ← hfbI_def, hfe]
    · rw [if_neg hpb] at hpbDur hisPB
      dsimp only at hpbDur hisPB
      rw [pyRound3_zero] at hpbDur
      subst hpbDur
      subst hisPB
      exact ⟨le_refl 0, hfb_nonneg, fun _ => rfl, by simp, by simp⟩
  · have hfb' : decide (0 < fbI.length) = false := decide_eq_false hfb
    rw [if_neg (by rw [hfb']; simp)] at hfbDur
    rw [hfb'] at hisFB
    subst hisFB
    subst hfbDur
    by_cases hpb : 0 < pbI.length
    · rw [if_pos hpb] at hpbDur hisPB
      rw [if_neg (by rw [hfb']; simp)] at hpbDur hisPB
      dsimp only at hpbDur hisPB
      subst hpbDur
      subst hisPB
      have hpbne : pbI ≠ [] := by
        intro hnil
        rw [hnil] at hpb
        simp at hpb
      have hpb_nonneg := pyRound3_nonneg _
        (segment_duration_nonneg time htime start pbI hpb_pw hpbne hpb_bound)
      exact ⟨hpb_nonneg, le_refl 0, by simp, fun _ => rfl, by simp⟩
    · rw [if_neg hpb] at hpbDur hisPB
      dsimp only at hpbDur hisPB
      rw [pyRound3_zero] at hpbDur
      subst hpbDur
      subst hisPB
      exact ⟨le_refl 0, le_refl 0, fun _ => rfl, fun _ => rfl, by simp⟩

/-- C5 witness: target-deceleration `[-3, -6]` over time `[0, 1]` with
PB target `-3`, FB target `-6`, tolerance `1/5`: both modes are
detected, both durations are `0`, and the PB duration is computed over
the single PB sample before the first FB sample. -/
theorem compute_brake_mode_spec_witness :
    0 ≤ (BrakeModeKpis.mk 0 0 true true).pbDur ∧
    0 ≤ (BrakeModeKpis.mk 0 0 true true).fbDur ∧
    ((BrakeModeKpis.mk 0 0 true true).isPBOn = false →
      (BrakeModeKpis.mk 0 0 true true).pbDur = 0) ∧
    ((BrakeModeKpis.mk 0 0 true true).isFBOn = false →
      (BrakeModeKpis.mk 0 0 true true).fbDur = 0) ∧
    ((BrakeModeKpis.mk 0 0 true true).isPBOn = true →
      (BrakeModeKpis.mk 0 0 true true).isFBOn = true →
      (BrakeModeKpis.mk 0 0 true true).pbDur =
        pbDurRestricted [-3, -6] [0, 1] 0 (-3) (-6) (1 / 5)) :=
  compute_brake_mode_spec [-3, -6] [0, 1] 0 (-3) (-6) (1 / 5) ⟨0, 0, true, true⟩
    (by norm_num [List.chain'_cons])
    (by norm_num [compute_brake_mode, pbCandidates, fbCandidates, idxWhere,
          List.range_succ, pyRound3, roundHalfEven])

end AebKpi
